import Mathlib

/-!
Verification development for the Brix Madine converter (`brixmadine.py`).

The definitions below are a shallow embedding of the core
pipeline of the program: wall-adjoin refinement (`_levrefine`), line and polygon tiling
(`_gettiles`, `_tilepolygon` with `_intersect`), nearest-color matching
(`_matchcolor`), the greedy part packer (`brickify`), the model writer
(`_formatoutput`) and the sector ordering performed by `dfmap`.

Conventions:
* Python floats are embedded as rationals (`ℚ`) except where a square
  root is genuinely taken (`_gettiles`), where reals (`ℝ`) are used.
* Python `int(x)` truncates toward zero; it is embedded as `pyIntQ` /
  `pyIntR`, not as the floor function.
* A Python runtime error (IndexError, ValueError, ZeroDivisionError,
  NameError) is embedded as `none` of an `Option` result.
* The mutable `dict` of the packer is embedded as a Mathlib `AList`.
-/

/-! ### Brick packer (`brickify`, source lines 419-490) -/

/-- A grid cell: the `(x, y, height-in-plates)` coordinate triple used as
dictionary key by `brickify`. -/
abbrev Cell : Type := ℤ × ℤ × ℤ

/-- One catalog part: `(x[stud], y[stud], z[plate-heights], DAT-file)`,
the tuples produced by `_partparse`. -/
structure BPart where
  px : ℤ
  py : ℤ
  pz : ℤ
  dat : String
deriving DecidableEq, Repr

/-- A placed part as recorded by `brickify`, kept with its anchor cell
(the loop variables `x, y, h`) and the part, from which the Python
output tuple `(pcx, pcy, pch, partdat, ccolor, pflip)` is derived by
`Placed.outTuple`. -/
structure Placed where
  ax : ℤ
  ay : ℤ
  ah : ℤ
  part : BPart
  color : ℕ
deriving DecidableEq, Repr

/-- The cells covered by a part anchored at `(x, y, h)`: the `coords`
list built in `brickify` by the nested comprehension over
`range(h, h + partz)`, `range(y, y + party)`, `range(x, x + partx)`. -/
def partCells (x y h : ℤ) (p : BPart) : List Cell :=
  (List.range p.pz.toNat).flatMap fun (cz : ℕ) =>
    (List.range p.py.toNat).flatMap fun (cy : ℕ) =>
      (List.range p.px.toNat).map fun (cx : ℕ) =>
        (x + (cx : ℤ), y + (cy : ℤ), h + (cz : ℤ))

/-- Cells covered by a placed part. -/
def Placed.cells (pp : Placed) : List Cell :=
  partCells pp.ax pp.ay pp.ah pp.part

/-- The Python output tuple of a placed part: center coordinates
`(x + partx/2, y + party/2, h + partz/2)` with the documented special
correction `pch += 1` for 3-plate-high bricks, the DAT file, the color
and the `party > partx` flip flag. -/
def Placed.outTuple (pp : Placed) : ℚ × ℚ × ℚ × String × ℕ × Bool :=
  ((pp.ax : ℚ) + (pp.part.px : ℚ) / 2,
   (pp.ay : ℚ) + (pp.part.py : ℚ) / 2,
   ((pp.ah : ℚ) + (pp.part.pz : ℚ) / 2) + (if pp.part.pz = 3 then 1 else 0),
   pp.part.dat, pp.color, pp.part.py > pp.part.px)

/-- The mutable `map` dictionary from cells to color codes. -/
abbrev CMap : Type := AList (fun _ : Cell => ℕ)

/-- Building the normalized dictionary: `map[(x, y, h)] = color` for each
grid entry in order (later duplicates overwrite earlier ones). -/
def buildMap (g : List (Cell × ℕ)) : CMap :=
  g.foldl (fun m e => m.insert e.1 e.2) ∅

/-- Erasing all cells of a footprint from the map (the
`for x, y, h in coords: del map[(x, y, h)]` loop). -/
def eraseAll (fp : List Cell) (m : CMap) : CMap :=
  fp.foldl (fun mm c => mm.erase c) m

/-- One pass of `brickify` for a single catalog part: iterate over the
snapshot `list(map.keys())`; skip keys already removed; check that all
cells the part would cover are present with the color of the anchor; if so,
record the placement and delete the covered cells. Returns the updated
map and the placements recorded during the pass. -/
def placePass (p : BPart) : List Cell → CMap → CMap × List Placed
  | [], m => (m, [])
  | k :: ks, m =>
    match m.lookup k with
    | none => placePass p ks m
    | some ccolor =>
      let fp := partCells k.1 k.2.1 k.2.2 p
      if ∀ c ∈ fp, m.lookup c = some ccolor then
        let res := placePass p ks (eraseAll fp m)
        (res.1, ⟨k.1, k.2.1, k.2.2, p, ccolor⟩ :: res.2)
      else
        placePass p ks m

/-- The outer loop of `brickify` over the part catalog, accumulating the
`assembly` list part by part. -/
def packLoop (parts : List BPart) (m : CMap) : CMap × List Placed :=
  match parts with
  | [] => (m, [])
  | p :: ps =>
    let r := placePass p m.keys m
    let r2 := packLoop ps r.1
    (r2.1, r.2 ++ r2.2)

/-- Height conversion from studs to plates:
`grid = [(x, y, round(h / pltheight), color) for ...]`. -/
def convertGrid (grid : List (ℤ × ℤ × ℚ × ℕ)) (plt : ℚ) : List (Cell × ℕ) :=
  grid.map fun e => ((e.1, e.2.1, round (e.2.2.1 / plt)), e.2.2.2)

/-- The packing algorithm on an already height-converted grid. -/
def brickifyCore (g : List (Cell × ℕ)) (parts : List BPart) : List Placed :=
  (packLoop parts (buildMap g)).2

/-- Full `brickify`: on an empty plate list the extent computation
`min(xs)` raises a ValueError (`none`); with a zero plate height the
conversion `round(h / pltheight)` raises a ZeroDivisionError (`none`);
otherwise the packer runs to completion. -/
def brickify (grid : List (ℤ × ℤ × ℚ × ℕ)) (parts : List BPart) (plt : ℚ) :
    Option (List Placed) :=
  match grid with
  | [] => none
  | _ :: _ => if plt = 0 then none else some (brickifyCore (convertGrid grid plt) parts)

/-! ### Model writer (`_formatoutput`, source lines 493-516) -/

/-- The fixed six-line header emitted by `_formatoutput`, with the output
file name substituted. -/
def ldrHeader (outfile : String) : String :=
  "0 Untitled\n0 Name: " ++ outfile ++
    "\n0 Author: MILSGen\n0 Unofficial Model\n0 ROTATION CENTER 0 0 0 1 \"Custom\"\n0 ROTATION CONFIG 0 0\n"

/-- One part line as assembled by the loop body of `_formatoutput`:
the format string swaps positions, printing color, then x, then height,
then y, then one of the two fixed rotation matrices, then the DAT. -/
def ldrPartLine (e : ℤ × ℤ × ℤ × String × String × Bool) : String :=
  "1 " ++ e.2.2.2.2.1 ++ " " ++ toString e.1 ++ " " ++ toString e.2.2.1 ++ " " ++
    toString e.2.1 ++ " " ++
    (if e.2.2.2.2.2 then "0 0 -1 0 1 0 1 0 0 " else "1 0 0 0 1 0 0 0 1 ") ++
    e.2.2.2.1 ++ "\n"

/-- The full `_formatoutput`: header, the per-part lines accumulated by
the loop, the terminator line, joined into one string. Parts come in as
`(x, y, h, dat, color, rotated)` tuples. -/
def formatoutput (parts : List (ℤ × ℤ × ℤ × String × String × Bool))
    (outfile : String) : String :=
  String.join (([ldrHeader outfile] ++ parts.map ldrPartLine) ++ ["0\n"])

/-! ### Color matcher (`_matchcolor`, source lines 348-371) -/

/-- A palette entry as parsed by `_colorparse`: `(ID, name, (r, g, b))`. -/
abbrev PalEntry : Type := ℕ × String × (ℤ × ℤ × ℤ)

/-- Sum of absolute per-channel differences, the `diffs` value. -/
def colorDist (rgb crgb : ℤ × ℤ × ℤ) : ℕ :=
  (rgb.1 - crgb.1).natAbs + (rgb.2.1 - crgb.2.1).natAbs + (rgb.2.2 - crgb.2.2).natAbs

/-- The scanning loop of `_matchcolor`: carries the best distance so far
(initially 768) and the best color id so far (initially unassigned, so a
fall-through with no update is a NameError, embedded as `none`). An
exact match returns immediately. -/
def matchScan (rgb : ℤ × ℤ × ℤ) : List PalEntry → ℕ → Option ℕ → Option ℕ
  | [], _, bestcol => bestcol
  | e :: rest, best, bestcol =>
    let diffs := colorDist rgb e.2.2
    if diffs = 0 then some e.1
    else if diffs < best then matchScan rgb rest diffs (some e.1)
    else matchScan rgb rest best bestcol

/-- Nearest-color matching (`direct=False` path of `_matchcolor`). -/
def matchcolor (rgb : ℤ × ℤ × ℤ) (palette : List PalEntry) : Option ℕ :=
  matchScan rgb palette 768 none

/-- A channel value admissible in an RGB triplet (palette entries come
from two-digit hex parsing, reference colors from image pixels). -/
def chOK (rgb : ℤ × ℤ × ℤ) : Prop :=
  0 ≤ rgb.1 ∧ rgb.1 ≤ 255 ∧ 0 ≤ rgb.2.1 ∧ rgb.2.1 ≤ 255 ∧ 0 ≤ rgb.2.2 ∧ rgb.2.2 ≤ 255

instance (rgb : ℤ × ℤ × ℤ) : Decidable (chOK rgb) := by
  unfold chOK; infer_instance

/-! ### Level geometry (`_levparse` output shape, `_polygonarea`,
`_levrefine`, source lines 134-321) -/

/-- A raw wall as produced by `_levparse`: start and end vertex, the
mid, top and bottom texture bindings with their offsets, and the adjoin
sector index (`-1` meaning unadjoined). -/
structure RawWall where
  p1 : ℚ × ℚ
  p2 : ℚ × ℚ
  midTex : String
  midOx : ℚ
  midOy : ℚ
  topTex : String
  topOx : ℚ
  topOy : ℚ
  botTex : String
  botOx : ℚ
  botOy : ℚ
  adjoin : ℤ
deriving DecidableEq, Repr

/-- A raw sector as produced by `_levparse` (list indices 0 to 11):
walls, floor texture and offsets, ceiling texture and offsets, floor and
ceiling altitudes (negated at parse time), and the three flags. -/
structure RawSector where
  walls : List RawWall
  flrtex : String
  flrox : ℚ
  flroy : ℚ
  ceiltex : String
  ceilox : ℚ
  ceiloy : ℚ
  flralt : ℚ
  ceilalt : ℚ
  opensky : Bool
  openflr : Bool
  nowalls : Bool
deriving DecidableEq, Repr

/-- A refined wall as produced by `_levrefine`: endpoints, bottom and top
altitude, the single surviving texture binding, and the anchored-from-top
flag. -/
structure RefWall where
  p1 : ℚ × ℚ
  p2 : ℚ × ℚ
  bot : ℚ
  top : ℚ
  tex : String
  ox : ℚ
  oy : ℚ
  topAnchor : Bool
deriving DecidableEq, Repr

/-- An original-wall endpoint pair, collected into `origwalls`. -/
abbrev Seg : Type := (ℚ × ℚ) × (ℚ × ℚ)

/-- A refined sector (list indices 0 to 13 after `_levrefine` replaced
the walls and appended the area and the original walls). -/
structure RefSector where
  walls : List RefWall
  flrtex : String
  flrox : ℚ
  flroy : ℚ
  ceiltex : String
  ceilox : ℚ
  ceiloy : ℚ
  flralt : ℚ
  ceilalt : ℚ
  opensky : Bool
  openflr : Bool
  nowalls : Bool
  area : ℚ
  origwalls : List Seg
deriving DecidableEq, Repr

/-- Python list indexing `l[i]`: nonnegative indices from the front,
negative indices from the back, IndexError (`none`) outside
`[-len(l), len(l))`. -/
def pyIdx {α : Type} (l : List α) (i : ℤ) : Option α :=
  if 0 ≤ i then l.get? i.toNat
  else if 0 ≤ (l.length : ℤ) + i then l.get? ((l.length : ℤ) + i).toNat
  else none

/-- The running sum of `_polygonarea`: cross products of consecutive
coordinate pairs. -/
def shoelaceTerms : List (ℚ × ℚ) → ℚ
  | [] => 0
  | [_] => 0
  | a :: b :: rest => (a.1 * b.2 - a.2 * b.1) + shoelaceTerms (b :: rest)

/-- The signed polygon area of `_polygonarea`: consecutive cross
products plus the wrap-around term `crd[-1] x crd[0]`, halved. On an
empty list the source raises an IndexError; callers guarantee a
non-empty list, and `0` is returned here for totality. -/
def polygonArea : List (ℚ × ℚ) → ℚ
  | [] => 0
  | a :: rest =>
    let l := (a :: rest).getLast (List.cons_ne_nil a rest)
    (shoelaceTerms (a :: rest) + (l.1 * a.2 - l.2 * a.1)) / 2

/-- Refinement of one raw wall (`_levrefine` inner loop): an unadjoined
wall keeps the mid texture over the full sector height; an adjoined
wall contributes a bottom-anchored step wall when the adjoined floor is
higher and a top-anchored overhang wall when the adjoined ceiling is
lower. The adjoined sector is fetched with Python list indexing, so an
index outside `[-len(lev), len(lev))` is an IndexError (`none`). -/
def refineWall (lev : List RawSector) (sec : RawSector) (w : RawWall) :
    Option (List RefWall) :=
  if w.adjoin = -1 then
    some [⟨w.p1, w.p2, sec.flralt, sec.ceilalt, w.midTex, w.midOx, w.midOy, false⟩]
  else
    match pyIdx lev w.adjoin with
    | none => none
    | some ad =>
      some ((if sec.flralt < ad.flralt then
               [⟨w.p1, w.p2, sec.flralt, ad.flralt, w.botTex, w.botOx, w.botOy, false⟩]
             else []) ++
            (if ad.ceilalt < sec.ceilalt then
               [⟨w.p1, w.p2, ad.ceilalt, sec.ceilalt, w.topTex, w.topOx, w.topOy, true⟩]
             else []))

/-- The wall loop of `_levrefine` for one sector: refine each wall in
order and append the refined walls into the `swalls` collector; the
first failing wall aborts the run. -/
def refineWallsLoop (lev : List RawSector) (sec : RawSector) :
    List RawWall → Option (List RefWall)
  | [] => some []
  | w :: rest =>
    match refineWall lev sec w, refineWallsLoop lev sec rest with
    | some nw, some rest2 => some (nw ++ rest2)
    | _, _ => none

/-- Refinement of one sector: refine each wall, collect the original
wall endpoint pairs, and attach the absolute polygon area computed from
the start vertices of the walls. A sector with no walls would make
`_polygonarea` raise (`none`). -/
def refineSector (lev : List RawSector) (sec : RawSector) : Option RefSector :=
  match sec.walls with
  | [] => none
  | _ :: _ =>
    match refineWallsLoop lev sec sec.walls with
    | none => none
    | some refined =>
      some ⟨refined, sec.flrtex, sec.flrox, sec.flroy, sec.ceiltex,
            sec.ceilox, sec.ceiloy, sec.flralt, sec.ceilalt, sec.opensky,
            sec.openflr, sec.nowalls,
            |polygonArea (sec.walls.map (fun w => w.p1))|,
            sec.walls.map (fun w => (w.p1, w.p2))⟩

/-- The sector loop of `_levrefine`: every sector refined in order; the
first failing sector aborts the run. -/
def refineLoop (lev : List RawSector) : List RawSector → Option (List RefSector)
  | [] => some []
  | sec :: rest =>
    match refineSector lev sec, refineLoop lev rest with
    | some r, some rs => some (r :: rs)
    | _, _ => none

/-- The whole `_levrefine`: every sector refined against the full sector
list (only the altitude fields of other sectors are read, which the
in-place mutation of the source never changes). -/
def levrefine (lev : List RawSector) : Option (List RefSector) :=
  refineLoop lev lev

/-! ### Sector ordering in `dfmap` (source line 566) -/

/-- The key actually used by `lev.sort(key=lambda e: e[10], ...)`:
element 10 of a refined sector is the no-floor flag `openflr`, not the
area (which sits at element 12). -/
def dfmapSortKey (s : RefSector) : Bool := s.openflr

/-- Python ordering on booleans: `False < True`. -/
def pyBoolLe (a b : Bool) : Bool := !a || b

/-- Stable insertion of an element after every already-placed element
that compares less-or-equal, the placement discipline of the stable
Python `list.sort`. -/
def stableInsert {α : Type} (le : α → α → Bool) (x : α) : List α → List α
  | [] => [x]
  | y :: ys => if le y x then y :: stableInsert le x ys else x :: y :: ys

/-- A stable sort (insertion sort, inserting the elements in list order),
the result the stable Python `list.sort` produces for a total preorder. -/
def stableSort {α : Type} (le : α → α → Bool) (l : List α) : List α :=
  l.foldl (fun acc x => stableInsert le x acc) []

/-- The sector reordering performed by `dfmap`:
`lev.sort(key=lambda e: e[10], reverse=(not prioritylarge))`, a stable
sort on the no-floor flag, ascending when `prioritylarge` is set. -/
def sortSectors (lev : List RefSector) (prioritylarge : Bool) : List RefSector :=
  if prioritylarge then stableSort (fun s t => pyBoolLe (dfmapSortKey s) (dfmapSortKey t)) lev
  else stableSort (fun s t => pyBoolLe (dfmapSortKey t) (dfmapSortKey s)) lev

/-- Modelled from the spec: the sector ordering the specification
describes, a stable sort on sector area (element 12), ascending when
`prioritylarge` is set, descending otherwise. Stated for comparison
with `sortSectors`, the ordering the code performs. -/
def sortSectorsByArea (lev : List RefSector) (prioritylarge : Bool) : List RefSector :=
  if prioritylarge then stableSort (fun s t => decide (s.area ≤ t.area)) lev
  else stableSort (fun s t => decide (t.area ≤ s.area)) lev

/-! ### Wall plate height loop of `dfmap` (source lines 626-663) -/

/-- Stud height of one LEGO plate (`LEGOPLATEHEIGHT = 0.4`). -/
def LEGOPLATEHEIGHT : ℚ := 2 / 5

/-- Iterator-step safety multiplier (`REDUCTION = 0.8`). -/
def REDUCTION : ℚ := 4 / 5

/-- The height increment of the wall loop:
`curheight += (LEGOPLATEHEIGHT * REDUCTION)`. -/
def heightStep : ℚ := LEGOPLATEHEIGHT * REDUCTION

theorem heightStep_pos : 0 < heightStep := by
  unfold heightStep LEGOPLATEHEIGHT REDUCTION; norm_num

/-- The heights visited by `while curheight <= top` starting from `cur`,
stepping by `heightStep` with no mid-loop rounding. -/
def heightLevels (top cur : ℚ) : List ℚ :=
  if h : cur ≤ top then cur :: heightLevels top (cur + heightStep) else []
termination_by (⌊(top - cur) / heightStep⌋ + 1).toNat
decreasing_by
  have hs : (0:ℚ) < heightStep := heightStep_pos
  have h0 : (0:ℤ) ≤ ⌊(top - cur) / heightStep⌋ := by
    apply Int.floor_nonneg.mpr
    exact div_nonneg (sub_nonneg.mpr h) (le_of_lt hs)
  have hrw : (top - (cur + heightStep)) / heightStep = (top - cur) / heightStep - 1 := by
    field_simp
    ring
  have : ⌊(top - (cur + heightStep)) / heightStep⌋ = ⌊(top - cur) / heightStep⌋ - 1 := by
    rw [hrw]
    rw [show ((1:ℚ) = ((1:ℤ):ℚ)) by norm_num]
    exact Int.floor_sub_int _ 1
  simp only [this]
  omega

/-- The plates appended for one wall tile by the height loop of `dfmap`:
one plate `(tilex, tiley, curheight, color)` per visited height, where
the color sampled from the texture at each height is abstracted into the
function `colorAt`. -/
def wallPlatesForTile (tilex tiley : ℤ) (bot top : ℚ) (colorAt : ℚ → ℕ) :
    List (ℤ × ℤ × ℚ × ℕ) :=
  (heightLevels top bot).map (fun hh => (tilex, tiley, hh, colorAt hh))

/-! ### Polygon tiling (`_intersect` and `_tilepolygon`,
source lines 374-416) -/

/-- The counter-clockwise orientation predicate `ccw` of `_intersect`. -/
def ccw (A B C : ℚ × ℚ) : Bool :=
  decide ((C.2 - A.2) * (B.1 - A.1) > (B.2 - A.2) * (C.1 - A.1))

/-- Segment intersection test `_intersect` on segments `AB` and `CD`. -/
def segIntersect (A B C D : ℚ × ℚ) : Bool :=
  (ccw A C D != ccw B C D) && (ccw A B C != ccw A B D)

/-- Number of walls crossed by the probe segment from `a` to `b`. -/
def probeCross (walls : List Seg) (a b : ℚ × ℚ) : ℕ :=
  (walls.filter (fun w => segIntersect a b w.1 w.2)).length

/-- Python `int()` truncation toward zero on a rational. -/
def pyIntQ (q : ℚ) : ℤ :=
  if 0 ≤ q then ⌊q⌋ else -⌊-q⌋

/-- Python `range(lo, hi)` over integers. -/
def intRange (lo hi : ℤ) : List ℤ :=
  (List.range (hi - lo).toNat).map (fun (i : ℕ) => lo + (i : ℤ))

/-- Minimum of a non-empty list of rationals (`min(...)` in Python);
`0` for the empty list, on which Python raises. -/
def qminD : List ℚ → ℚ
  | [] => 0
  | a :: rest => rest.foldl min a

/-- Maximum of a non-empty list of rationals (`max(...)` in Python);
`0` for the empty list, on which Python raises. -/
def qmaxD : List ℚ → ℚ
  | [] => 0
  | a :: rest => rest.foldl max a

/-- The `x` coordinates collected by `_tilepolygon` for the extents. -/
def wallsXs (walls : List Seg) : List ℚ :=
  walls.map (fun w => w.1.1) ++ walls.map (fun w => w.2.1)

/-- The `y` coordinates collected by `_tilepolygon` for the extents. -/
def wallsYs (walls : List Seg) : List ℚ :=
  walls.map (fun w => w.1.2) ++ walls.map (fun w => w.2.2)

/-- Scan extent `minx = int(min(xc)) - 2`. -/
def scanMinX (walls : List Seg) : ℤ := pyIntQ (qminD (wallsXs walls)) - 2

/-- Scan extent `maxx = int(max(xc)) + 3`. -/
def scanMaxX (walls : List Seg) : ℤ := pyIntQ (qmaxD (wallsXs walls)) + 3

/-- Scan extent `miny = int(min(yc)) - 2`. -/
def scanMinY (walls : List Seg) : ℤ := pyIntQ (qminD (wallsYs walls)) - 2

/-- Scan extent `maxy = int(max(yc)) + 3`. -/
def scanMaxY (walls : List Seg) : ℤ := pyIntQ (qmaxD (wallsYs walls)) + 3

/-- The probe segment cast for cell `(col, y)`: from
`(column + offsetx, y + offsety)` to `(column + offsetx, y + offsety + 1)`. -/
def probeA (ox oy : ℚ) (col y : ℤ) : ℚ × ℚ := ((col : ℚ) + ox, (y : ℚ) + oy)

/-- Upper end of the probe segment for cell `(col, y)`. -/
def probeB (ox oy : ℚ) (col y : ℤ) : ℚ × ℚ := ((col : ℚ) + ox, (y : ℚ) + oy + 1)

/-- One column of the `_tilepolygon` scan: walk the cells top-down,
accumulate the crossing counter over the whole column, and append the
cell whenever the accumulated counter is odd. -/
def columnScan (walls : List Seg) (ox oy : ℚ) (col : ℤ) :
    List ℤ → ℕ → List (ℤ × ℤ)
  | [], _ => []
  | y :: rest, cnt =>
    let cnt2 := cnt + probeCross walls (probeA ox oy col y) (probeB ox oy col y)
    (if cnt2 % 2 = 1 then [(col, y)] else []) ++ columnScan walls ox oy col rest cnt2

/-- The whole `_tilepolygon`: for every column of the scanned extents,
run the column scan with the counter reset to zero. On an empty wall
list the Python `min` raises (`none`). -/
def tilepolygon (walls : List Seg) (ox oy : ℚ) : Option (List (ℤ × ℤ)) :=
  match walls with
  | [] => none
  | _ :: _ =>
    some ((intRange (scanMinX walls) (scanMaxX walls)).flatMap
      (fun col => columnScan walls ox oy col
        (intRange (scanMinY walls) (scanMaxY walls)) 0))

/-- Modelled from the spec: a reference even-odd point-in-polygon test
(section 8 of the specification), counting boundary crossings of a
vertical ray from the query point far downward, used only to check
concrete polygon instances against `tilepolygon`. -/
def refEvenOdd (walls : List Seg) (p : ℚ × ℚ) : Bool :=
  decide (probeCross walls p (p.1, -1000) % 2 = 1)

/-! ### Line tiling (`_gettiles`, source lines 324-345) -/

/-- Python `int()` truncation toward zero on a real number. -/
noncomputable def pyIntR (x : ℝ) : ℤ :=
  if 0 ≤ x then ⌊x⌋ else -⌊-x⌋

/-- Euclidean length of the segment, `((xs**2) + (ys**2))**0.5`. -/
noncomputable def segLength (p1 p2 : ℝ × ℝ) : ℝ :=
  Real.sqrt ((p2.1 - p1.1) ^ 2 + (p2.2 - p1.2) ^ 2)

/-- The fixed tiling granularity `TILINGSTEPS = 0.02`. -/
noncomputable def TILINGSTEPS : ℝ := 1 / 50

/-- The cell a point is condensed to by `_gettiles`:
`(int(x), int(y))`. -/
noncomputable def pointCell (p : ℝ × ℝ) : ℤ × ℤ := (pyIntR p.1, pyIntR p.2)

/-- The `_gettiles` algorithm, with the step granularity a parameter:
a segment shorter than `0.01` yields the single cell of its start point;
otherwise the segment is sampled `int(divisor)` times from the start
(with `divisor` clamped below by 1), the exact end point is appended,
and the samples are condensed to integer cells as a set. -/
noncomputable def gettiles (step : ℝ) (p1 p2 : ℝ × ℝ) : Finset (ℤ × ℤ) :=
  if segLength p1 p2 < 1 / 100 then {pointCell p1}
  else
    let divisor0 := segLength p1 p2 / step
    let divisor := if divisor0 < 1 then 1 else divisor0
    let stepx := (p2.1 - p1.1) / divisor
    let stepy := (p2.2 - p1.2) / divisor
    let pts := ((List.range (pyIntR divisor).toNat).map
      (fun (e : ℕ) => (p1.1 + stepx * (e : ℝ), p1.2 + stepy * (e : ℝ)))) ++ [p2]
    (pts.map pointCell).toFinset

/-- The unit grid cell `(i, j)` contains the points of
`[i, i + 1) x [j, j + 1)`. -/
def cellContains (c : ℤ × ℤ) (p : ℝ × ℝ) : Prop :=
  (c.1 : ℝ) ≤ p.1 ∧ p.1 < (c.1 : ℝ) + 1 ∧ (c.2 : ℝ) ≤ p.2 ∧ p.2 < (c.2 : ℝ) + 1

/-! ### Helper lemmas on strings -/

theorem strFoldlAppend (l : List String) (x y : String) :
    l.foldl (· ++ ·) (x ++ y) = x ++ l.foldl (· ++ ·) y := by
  induction l generalizing y with
  | nil => rfl
  | cons b t ih =>
    simp only [List.foldl_cons, String.append_assoc]
    exact ih (y ++ b)

theorem strJoinCons (a : String) (l : List String) :
    String.join (a :: l) = a ++ String.join l := by
  show (a :: l).foldl (· ++ ·) "" = a ++ l.foldl (· ++ ·) ""
  have h1 : ("" : String) ++ a = a ++ "" := by simp
  simp only [List.foldl_cons, h1]
  exact strFoldlAppend l a ""

theorem strJoinAppend (l1 l2 : List String) :
    String.join (l1 ++ l2) = String.join l1 ++ String.join l2 := by
  induction l1 with
  | nil =>
    simp only [List.nil_append]
    show String.join l2 = String.join [] ++ String.join l2
    simp [String.join]
  | cons a t ih =>
    simp only [List.cons_append, strJoinCons, ih, String.append_assoc]

/-! ### Claim C9: model writer line format -/

/-- The nine rotation-matrix tokens the specification names: the
identity matrix when the orientation flag is clear, the 90-degree swap
matrix when it is set. -/
def specRotTokens (rotated : Bool) : List String :=
  if rotated then ["0", "0", "-1", "0", "1", "0", "1", "0", "0"]
  else ["1", "0", "0", "0", "1", "0", "0", "0", "1"]

/-- A part line as the specification words it: the tokens `1`, the
color, the x coordinate, the height, the y coordinate (height and y
swapped relative to the internal order), the nine rotation-matrix
numbers and the part identifier, separated by single spaces. -/
def specPartLine (e : ℤ × ℤ × ℤ × String × String × Bool) : String :=
  String.intercalate " "
    (["1", e.2.2.2.2.1, toString e.1, toString e.2.2.1, toString e.2.1] ++
      specRotTokens e.2.2.2.2.2 ++ [e.2.2.2.1]) ++ "\n"

theorem ldrPartLine_eq_spec (e : ℤ × ℤ × ℤ × String × String × Bool) :
    ldrPartLine e = specPartLine e := by
  obtain ⟨x, y, h, dat, color, rotated⟩ := e
  cases rotated <;>
    simp [ldrPartLine, specPartLine, specRotTokens, String.intercalate,
      String.intercalate.go, String.append_assoc]

/-- Claim C9: the model writer emits, for every placed part, exactly one
line of the form `1 color x height y rotationMatrix partIdentifier`,
with the internal y and height axes swapped in the output order, the
rotation matrix being the identity when the orientation flag is false
and the fixed 90-degree swap matrix when it is true, and after all part
lines a single terminator line `0`. -/
theorem formatoutput_wire_format (parts : List (ℤ × ℤ × ℤ × String × String × Bool))
    (outfile : String) :
    formatoutput parts outfile =
      ldrHeader outfile ++ String.join (parts.map specPartLine) ++ "0\n" := by
  unfold formatoutput
  rw [List.map_congr_left (fun e _ => ldrPartLine_eq_spec e)]
  show String.join (ldrHeader outfile :: (parts.map specPartLine ++ ["0\n"])) = _
  rw [strJoinCons, strJoinAppend]
  simp [String.join, String.append_assoc]

/-! ### Claim C10: brickify on an empty plate list -/

/-- Claim C10: with the configured nonzero plate height, `brickify`
fails (the minimum of an empty coordinate sequence raises) exactly on
the empty plate list; every non-empty plate list is packed to
completion. -/
theorem brickify_empty_grid_fails (grid : List (ℤ × ℤ × ℚ × ℕ))
    (parts : List BPart) (plt : ℚ) (hplt : plt ≠ 0) :
    brickify grid parts plt = none ↔ grid = [] := by
  cases grid with
  | nil => simp [brickify]
  | cons a t => simp [brickify, hplt]

theorem brickify_empty_grid_fails_witness :
    (brickify [] [⟨1, 1, 1, "3024.dat"⟩] 1 = none ↔ ([] : List (ℤ × ℤ × ℚ × ℕ)) = []) ∧
    (brickify [((0 : ℤ), (0 : ℤ), (0 : ℚ), 5)] [⟨1, 1, 1, "3024.dat"⟩] 1 = none ↔
      ([((0 : ℤ), (0 : ℤ), (0 : ℚ), 5)] : List (ℤ × ℤ × ℚ × ℕ)) = []) :=
  ⟨brickify_empty_grid_fails [] [⟨1, 1, 1, "3024.dat"⟩] 1 (by norm_num),
   brickify_empty_grid_fails [((0 : ℤ), (0 : ℤ), (0 : ℚ), 5)] [⟨1, 1, 1, "3024.dat"⟩] 1
     (by norm_num)⟩

/-! ### Claim C2: sector ordering before plate generation -/

/-- A small demo sector: area 1, with the no-floor flag set. -/
def demoSmallPit : RefSector :=
  ⟨[], "", 0, 0, "", 0, 0, 0, 4, false, true, false, 1, []⟩

/-- A large demo sector: area 4, with the no-floor flag clear. -/
def demoLargeSolid : RefSector :=
  ⟨[], "", 0, 0, "", 0, 0, 0, 4, false, false, false, 4, []⟩

/-- Claim C2: the reorder step of `dfmap` sorts by tuple element 10,
which is the no-floor flag, not by the sector area (element 12): with
`prioritylarge` set, the small pit sector sorts after the large solid
sector even though its area is smaller, diverging from the area
ordering the specification (and the module docstring) describe. -/
theorem dfmap_sorts_by_flag_not_area :
    sortSectors [demoSmallPit, demoLargeSolid] true = [demoLargeSolid, demoSmallPit] ∧
    sortSectorsByArea [demoSmallPit, demoLargeSolid] true = [demoSmallPit, demoLargeSolid] ∧
    sortSectors [demoSmallPit, demoLargeSolid] true ≠
      sortSectorsByArea [demoSmallPit, demoLargeSolid] true := by
  refine ⟨?_, ?_, ?_⟩ <;> with_unfolding_all decide

/-! ### Claim C3: wall refinement case analysis -/

/-- Claim C3: an unadjoined raw wall yields exactly the one mid-textured
bottom-anchored refined wall over the full sector height; an adjoined
wall yields the bottom step wall exactly when the adjoined floor is
strictly higher, the top overhang wall exactly when the adjoined
ceiling is strictly lower, both independently, and nothing otherwise. -/
theorem refineWall_case_analysis (lev : List RawSector) (sec : RawSector) (w : RawWall) :
    (w.adjoin = -1 →
      refineWall lev sec w =
        some [⟨w.p1, w.p2, sec.flralt, sec.ceilalt, w.midTex, w.midOx, w.midOy, false⟩]) ∧
    (∀ S, w.adjoin ≠ -1 → pyIdx lev w.adjoin = some S →
      ∃ ws, refineWall lev sec w = some ws ∧
        (∀ rw, rw ∈ ws ↔
          ((sec.flralt < S.flralt ∧
            rw = ⟨w.p1, w.p2, sec.flralt, S.flralt, w.botTex, w.botOx, w.botOy, false⟩) ∨
           (S.ceilalt < sec.ceilalt ∧
            rw = ⟨w.p1, w.p2, S.ceilalt, sec.ceilalt, w.topTex, w.topOx, w.topOy, true⟩))) ∧
        ws.length = (if sec.flralt < S.flralt then 1 else 0) +
          (if S.ceilalt < sec.ceilalt then 1 else 0)) := by
  constructor
  · intro h
    simp [refineWall, h]
  · intro S hne hS
    have hw : refineWall lev sec w =
        some ((if sec.flralt < S.flralt then
                 [⟨w.p1, w.p2, sec.flralt, S.flralt, w.botTex, w.botOx, w.botOy, false⟩]
               else []) ++
              (if S.ceilalt < sec.ceilalt then
                 [⟨w.p1, w.p2, S.ceilalt, sec.ceilalt, w.topTex, w.topOx, w.topOy, true⟩]
               else [])) := by
      simp [refineWall, hne, hS]
    refine ⟨_, hw, ?_, ?_⟩
    · intro rw0
      by_cases h1 : sec.flralt < S.flralt <;> by_cases h2 : S.ceilalt < sec.ceilalt <;>
        simp [h1, h2]
    · by_cases h1 : sec.flralt < S.flralt <;> by_cases h2 : S.ceilalt < sec.ceilalt <;>
        simp [h1, h2]

/-- A demo adjoined raw wall referencing sector 1. -/
def demoRawWall : RawWall := ⟨(0, 0), (4, 0), "M", 0, 0, "T", 0, 0, "B", 0, 0, 1⟩

/-- A demo outer sector (floor 0, ceiling 4) owning `demoRawWall`. -/
def demoRawOuter : RawSector :=
  ⟨[demoRawWall], "F", 0, 0, "C", 0, 0, 0, 4, false, false, false⟩

/-- A demo inner sector (floor 1, ceiling 3), the adjoin target. -/
def demoRawInner : RawSector :=
  ⟨[], "F", 0, 0, "C", 0, 0, 1, 3, false, false, false⟩

theorem refineWall_case_analysis_witness :
    ∃ ws, refineWall [demoRawOuter, demoRawInner] demoRawOuter demoRawWall = some ws ∧
      (∀ rw, rw ∈ ws ↔
        ((demoRawOuter.flralt < demoRawInner.flralt ∧
          rw = ⟨demoRawWall.p1, demoRawWall.p2, demoRawOuter.flralt, demoRawInner.flralt,
                demoRawWall.botTex, demoRawWall.botOx, demoRawWall.botOy, false⟩) ∨
         (demoRawInner.ceilalt < demoRawOuter.ceilalt ∧
          rw = ⟨demoRawWall.p1, demoRawWall.p2, demoRawInner.ceilalt, demoRawOuter.ceilalt,
                demoRawWall.topTex, demoRawWall.topOx, demoRawWall.topOy, true⟩))) ∧
      ws.length = (if demoRawOuter.flralt < demoRawInner.flralt then 1 else 0) +
        (if demoRawInner.ceilalt < demoRawOuter.ceilalt then 1 else 0) :=
  (refineWall_case_analysis [demoRawOuter, demoRawInner] demoRawOuter demoRawWall).2
    demoRawInner (by decide) (by with_unfolding_all decide)

/-! ### Claim C8: out-of-range adjoin handling -/

theorem pyIdx_eq_none {α : Type} (l : List α) (i : ℤ) :
    pyIdx l i = none ↔ (i < -(l.length : ℤ) ∨ (l.length : ℤ) ≤ i) := by
  unfold pyIdx
  split_ifs with h1 h2
  · rw [List.get?_eq_none]
    omega
  · rw [List.get?_eq_none]
    omega
  · simp
    omega

/-- Claim C8 counterexample: a wall whose adjoin is `-2` (neither the
`-1` marker nor the index of an existing sector of the two-sector
level) does not fail: Python list indexing silently wraps to the
sector one from the end, and refinement succeeds. -/
theorem refineWall_wraps_negative_adjoin :
    (refineWall [demoRawOuter, demoRawInner] demoRawOuter
      ⟨(0, 0), (4, 0), "M", 0, 0, "T", 0, 0, "B", 0, 0, -2⟩).isSome = true ∧
    ([demoRawOuter, demoRawInner].length = 2 ∧
      ¬((0 : ℤ) ≤ -2 ∧ (-2 : ℤ) < 2) ∧ (-2 : ℤ) ≠ -1) := by
  constructor
  · with_unfolding_all decide
  · decide

/-- Claim C8 as amended: wall refinement fails fatally exactly when the
adjoin is neither `-1` nor inside `[-len(lev), len(lev))`; adjoin
values in `[-len(lev), -2]` are silently wrapped to sectors counted
from the end of the list (Python negative indexing), not rejected. -/
theorem refineWall_fatal_iff (lev : List RawSector) (sec : RawSector) (w : RawWall) :
    refineWall lev sec w = none ↔
      (w.adjoin ≠ -1 ∧
        (w.adjoin < -(lev.length : ℤ) ∨ (lev.length : ℤ) ≤ w.adjoin)) := by
  by_cases hadj : w.adjoin = -1
  · simp [refineWall, hadj]
  · cases hS : pyIdx lev w.adjoin with
    | none =>
      simp only [refineWall, if_neg hadj, hS]
      simp [hadj, (pyIdx_eq_none _ _).mp hS]
    | some S =>
      simp only [refineWall, if_neg hadj, hS]
      have hnot : ¬(w.adjoin < -(lev.length : ℤ) ∨ (lev.length : ℤ) ≤ w.adjoin) := by
        intro hc
        rw [(pyIdx_eq_none _ _).mpr hc] at hS
        cases hS
      simp [hadj, hnot]

/-! ### Claim C5: refined wall ordering and degenerate walls -/

theorem refineWall_bot_le_top (lev : List RawSector) (sec : RawSector) (w : RawWall)
    (rws : List RefWall) (hsec : sec.flralt ≤ sec.ceilalt)
    (h : refineWall lev sec w = some rws) : ∀ rw ∈ rws, rw.bot ≤ rw.top := by
  by_cases hadj : w.adjoin = -1
  · simp only [refineWall, if_pos hadj, Option.some_inj] at h
    intro rw hrw
    rw [← h] at hrw
    simp only [List.mem_singleton] at hrw
    subst hrw
    exact hsec
  · rw [refineWall, if_neg hadj] at h
    cases hS : pyIdx lev w.adjoin with
    | none => rw [hS] at h; cases h
    | some S =>
      rw [hS, Option.some_inj] at h
      intro rw hrw
      rw [← h, List.mem_append] at hrw
      rcases hrw with hb | ht
      · by_cases h1 : sec.flralt < S.flralt
        · rw [if_pos h1, List.mem_singleton] at hb
          subst hb
          exact le_of_lt h1
        · rw [if_neg h1] at hb
          cases hb
      · by_cases h2 : S.ceilalt < sec.ceilalt
        · rw [if_pos h2, List.mem_singleton] at ht
          subst ht
          exact le_of_lt h2
        · rw [if_neg h2] at ht
          cases ht

theorem refineWallsLoop_bot_le_top (lev : List RawSector) (sec : RawSector)
    (hsec : sec.flralt ≤ sec.ceilalt) :
    ∀ ws rws, refineWallsLoop lev sec ws = some rws → ∀ rw ∈ rws, rw.bot ≤ rw.top := by
  intro ws
  induction ws with
  | nil =>
    intro rws h
    simp only [refineWallsLoop, Option.some_inj] at h
    rw [← h]
    intro rw hrw
    cases hrw
  | cons w rest ih =>
    intro rws h
    rw [refineWallsLoop] at h
    cases hw : refineWall lev sec w with
    | none => rw [hw] at h; cases h
    | some nw =>
      cases hr : refineWallsLoop lev sec rest with
      | none => rw [hw, hr] at h; cases h
      | some rest2 =>
        rw [hw, hr, Option.some_inj] at h
        intro rw0 hrw0
        rw [← h, List.mem_append] at hrw0
        rcases hrw0 with ha | hb
        · exact refineWall_bot_le_top lev sec w nw hsec hw rw0 ha
        · exact ih rest2 hr rw0 hb

theorem refineSector_bot_le_top (lev : List RawSector) (sec : RawSector) (rsec : RefSector)
    (hsec : sec.flralt ≤ sec.ceilalt) (h : refineSector lev sec = some rsec) :
    ∀ rw ∈ rsec.walls, rw.bot ≤ rw.top := by
  unfold refineSector at h
  split at h
  · cases h
  · split at h
    · cases h
    · next refined hloop =>
      rw [Option.some_inj] at h
      have hwalls : rsec.walls = refined := by rw [← h]
      rw [hwalls]
      exact refineWallsLoop_bot_le_top lev sec hsec sec.walls refined hloop

theorem refineLoop_mem (lev : List RawSector) :
    ∀ secs rs, refineLoop lev secs = some rs → ∀ rsec ∈ rs,
      ∃ sec ∈ secs, refineSector lev sec = some rsec := by
  intro secs
  induction secs with
  | nil =>
    intro rs h
    simp only [refineLoop, Option.some_inj] at h
    rw [← h]
    intro rsec hr
    cases hr
  | cons sec rest ih =>
    intro rs h
    rw [refineLoop] at h
    cases hs : refineSector lev sec with
    | none => rw [hs] at h; cases h
    | some r =>
      cases hr : refineLoop lev rest with
      | none => rw [hs, hr] at h; cases h
      | some rs2 =>
        rw [hs, hr, Option.some_inj] at h
        intro rsec hmem
        rw [← h, List.mem_cons] at hmem
        rcases hmem with h1 | h2
        · exact ⟨sec, List.mem_cons_self sec rest, h1 ▸ hs⟩
        · obtain ⟨s2, hs2, hs2r⟩ := ih rs2 hr rsec h2
          exact ⟨s2, List.mem_cons_of_mem sec hs2, hs2r⟩

/-- Claim C5 counterexample: a degenerate wall tile with top equal to
bottom is not skipped by the plate loop: `while curheight <= top` runs
once and emits one plate, so the claim that it produces no plates is
false. -/
theorem degenerate_wall_emits_one_plate :
    wallPlatesForTile 0 0 0 0 (fun _ => 7) = [(0, 0, 0, 7)] ∧
    wallPlatesForTile 0 0 0 0 (fun _ => 7) ≠ [] := by
  have h : wallPlatesForTile 0 0 0 0 (fun _ => 7) = [(0, 0, 0, 7)] := by
    unfold wallPlatesForTile
    rw [heightLevels, dif_pos le_rfl, heightLevels,
      dif_neg (by nlinarith [heightStep_pos])]
    rfl
  exact ⟨h, by rw [h]; simp⟩

/-- Claim C5 as amended: every refined wall of a level whose sectors
all satisfy floor altitude at most ceiling altitude has top at least
bottom; but a refined wall with top equal to bottom is not degenerate
for the plate loop: `while curheight <= top` starting at the bottom
runs exactly once and produces exactly one plate per tile. -/
theorem refined_walls_ordered_and_degenerate_emits :
    (∀ lev rs, levrefine lev = some rs → (∀ s ∈ lev, s.flralt ≤ s.ceilalt) →
      ∀ rsec ∈ rs, ∀ rw ∈ rsec.walls, rw.bot ≤ rw.top) ∧
    (∀ (tx ty : ℤ) (b : ℚ) (colorAt : ℚ → ℕ),
      wallPlatesForTile tx ty b b colorAt = [(tx, ty, b, colorAt b)]) := by
  constructor
  · intro lev rs h hlev rsec hrsec rw hrw
    obtain ⟨sec, hsec, hsecr⟩ := refineLoop_mem lev lev rs h rsec hrsec
    exact refineSector_bot_le_top lev sec rsec (hlev sec hsec) hsecr rw hrw
  · intro tx ty b colorAt
    unfold wallPlatesForTile
    rw [heightLevels, dif_pos le_rfl, heightLevels,
      dif_neg (by nlinarith [heightStep_pos])]
    rfl

/-- A demo unadjoined raw wall. -/
def demoSoloWall : RawWall := ⟨(0, 0), (4, 0), "M", 0, 0, "T", 0, 0, "B", 0, 0, -1⟩

/-- A demo one-wall sector with floor 0 and ceiling 4. -/
def demoSoloSector : RawSector :=
  ⟨[demoSoloWall], "F", 0, 0, "C", 0, 0, 0, 4, false, false, false⟩

/-- The refined wall `_levrefine` produces for `demoSoloWall`. -/
def demoSoloRefWall : RefWall := ⟨(0, 0), (4, 0), 0, 4, "M", 0, 0, false⟩

/-- The refined sector `_levrefine` produces for `demoSoloSector`. -/
def demoSoloRef : RefSector :=
  ⟨[demoSoloRefWall], "F", 0, 0, "C", 0, 0, 0, 4, false, false, false, 0,
   [((0, 0), (4, 0))]⟩

theorem refined_walls_ordered_witness : demoSoloRefWall.bot ≤ demoSoloRefWall.top :=
  refined_walls_ordered_and_degenerate_emits.1 [demoSoloSector] [demoSoloRef]
    (by with_unfolding_all decide) (by with_unfolding_all decide)
    demoSoloRef (by with_unfolding_all decide)
    demoSoloRefWall (by with_unfolding_all decide)

/-! ### Claim C6: nearest-color matching -/

theorem colorDist_self (rgb : ℤ × ℤ × ℤ) : colorDist rgb rgb = 0 := by
  simp [colorDist]

theorem colorDist_le_765 (a b : ℤ × ℤ × ℤ) (ha : chOK a) (hb : chOK b) :
    colorDist a b ≤ 765 := by
  obtain ⟨h1, h2, h3, h4, h5, h6⟩ := ha
  obtain ⟨g1, g2, g3, g4, g5, g6⟩ := hb
  unfold colorDist
  omega

theorem matchScan_no_improve (rgb : ℤ × ℤ × ℤ) :
    ∀ (pal : List PalEntry) (best : ℕ) (bestcol : Option ℕ), 0 < best →
      (∀ e ∈ pal, best ≤ colorDist rgb e.2.2) →
      matchScan rgb pal best bestcol = bestcol := by
  intro pal
  induction pal with
  | nil => intro best bestcol _ _; rfl
  | cons e rest ih =>
    intro best bestcol hbest hall
    have he : best ≤ colorDist rgb e.2.2 := hall e (List.mem_cons_self e rest)
    rw [matchScan]
    rw [if_neg (by omega), if_neg (by omega)]
    exact ih best bestcol hbest (fun g hg => hall g (List.mem_cons_of_mem e hg))

theorem matchScan_improve (rgb : ℤ × ℤ × ℤ) :
    ∀ (pal : List PalEntry) (best : ℕ) (bestcol : Option ℕ), 0 < best →
      (∃ f ∈ pal, colorDist rgb f.2.2 < best) →
      ∃ pre f post, pal = pre ++ f :: post ∧
        matchScan rgb pal best bestcol = some f.1 ∧
        colorDist rgb f.2.2 < best ∧
        (∀ g ∈ pre, best ≤ colorDist rgb g.2.2 ∨
          colorDist rgb f.2.2 < colorDist rgb g.2.2) ∧
        (∀ g ∈ post, colorDist rgb f.2.2 ≤ colorDist rgb g.2.2) := by
  intro pal
  induction pal with
  | nil =>
    intro best bestcol _ hex
    obtain ⟨f, hf, _⟩ := hex
    cases hf
  | cons e rest ih =>
    intro best bestcol hbest hex
    by_cases h0 : colorDist rgb e.2.2 = 0
    · refine ⟨[], e, rest, rfl, ?_, by omega, by simp, ?_⟩
      · rw [matchScan, if_pos h0]
      · intro g _
        omega
    · by_cases hlt : colorDist rgb e.2.2 < best
      · by_cases hex2 : ∃ g ∈ rest, colorDist rgb g.2.2 < colorDist rgb e.2.2
        · obtain ⟨pre, f, post, hsplit, hres, hflt, hpre, hpost⟩ :=
            ih (colorDist rgb e.2.2) (some e.1) (by omega) hex2
          refine ⟨e :: pre, f, post, by rw [hsplit, List.cons_append], ?_, by omega, ?_, hpost⟩
          · rw [matchScan, if_neg h0, if_pos hlt]
            exact hres
          · intro g hg
            rcases List.mem_cons.mp hg with hge | hgp
            · subst hge
              right
              omega
            · rcases hpre g hgp with h1 | h2
              · right; omega
              · right; exact h2
        · push_neg at hex2
          refine ⟨[], e, rest, rfl, ?_, hlt, by simp, hex2⟩
          rw [matchScan, if_neg h0, if_pos hlt]
          exact matchScan_no_improve rgb rest (colorDist rgb e.2.2) (some e.1)
            (by omega) hex2
      · obtain ⟨f0, hf0, hf0lt⟩ := hex
        have hf0r : f0 ∈ rest := by
          rcases List.mem_cons.mp hf0 with h1 | h2
          · subst h1; omega
          · exact h2
        obtain ⟨pre, f, post, hsplit, hres, hflt, hpre, hpost⟩ :=
          ih best bestcol hbest ⟨f0, hf0r, hf0lt⟩
        refine ⟨e :: pre, f, post, by rw [hsplit, List.cons_append], ?_, hflt, ?_, hpost⟩
        · rw [matchScan, if_neg h0, if_neg hlt]
          exact hres
        · intro g hg
          rcases List.mem_cons.mp hg with hge | hgp
          · subst hge; left; omega
          · exact hpre g hgp

/-- Claim C6: on a non-empty palette with admissible channel values and
direct mode off, the matcher returns the identifier of the palette
entry minimizing the sum of absolute per-channel differences, the
earliest such entry in palette order on ties (every earlier entry is
strictly worse), and an RGB triplet present verbatim in the palette is
matched at distance zero, hence to the earliest verbatim entry. -/
theorem matchcolor_nearest (rgb : ℤ × ℤ × ℤ) (palette : List PalEntry)
    (hne : palette ≠ []) (hpal : ∀ e ∈ palette, chOK e.2.2) (hrgb : chOK rgb) :
    ∃ pre f post, palette = pre ++ f :: post ∧
      matchcolor rgb palette = some f.1 ∧
      (∀ g ∈ palette, colorDist rgb f.2.2 ≤ colorDist rgb g.2.2) ∧
      (∀ g ∈ pre, colorDist rgb f.2.2 < colorDist rgb g.2.2) ∧
      (∀ g ∈ palette, g.2.2 = rgb → colorDist rgb f.2.2 = 0) := by
  obtain ⟨e0, rest0, rfl⟩ := List.exists_cons_of_ne_nil hne
  have hex : ∃ f ∈ e0 :: rest0, colorDist rgb f.2.2 < 768 := by
    refine ⟨e0, List.mem_cons_self e0 rest0, ?_⟩
    have := colorDist_le_765 rgb e0.2.2 hrgb (hpal e0 (List.mem_cons_self e0 rest0))
    omega
  obtain ⟨pre, f, post, hsplit, hres, _, hpre, hpost⟩ :=
    matchScan_improve rgb (e0 :: rest0) 768 none (by omega) hex
  have hbound : ∀ g ∈ e0 :: rest0, colorDist rgb g.2.2 ≤ 765 :=
    fun g hg => colorDist_le_765 rgb g.2.2 hrgb (hpal g hg)
  have hprestrict : ∀ g ∈ pre, colorDist rgb f.2.2 < colorDist rgb g.2.2 := by
    intro g hg
    have hgmem : g ∈ e0 :: rest0 := by
      rw [hsplit]
      exact List.mem_append_left _ hg
    rcases hpre g hg with h1 | h2
    · have := hbound g hgmem
      omega
    · exact h2
  have hmin : ∀ g ∈ e0 :: rest0, colorDist rgb f.2.2 ≤ colorDist rgb g.2.2 := by
    intro g hg
    rw [hsplit] at hg
    rcases List.mem_append.mp hg with h1 | h2
    · exact le_of_lt (hprestrict g h1)
    · rcases List.mem_cons.mp h2 with h3 | h4
      · subst h3; exact le_refl _
      · exact hpost g h4
  refine ⟨pre, f, post, hsplit, hres, hmin, hprestrict, ?_⟩
  intro g hg hgv
  have := hmin g hg
  rw [hgv, colorDist_self] at this
  omega

theorem matchcolor_nearest_witness :
    ∃ pre f post,
      ([(5, "gray", ((10 : ℤ), (10 : ℤ), (10 : ℤ))), (7, "black", (0, 0, 0))] :
        List PalEntry) = pre ++ f :: post ∧
      matchcolor (0, 0, 0)
        [(5, "gray", (10, 10, 10)), (7, "black", (0, 0, 0))] = some f.1 ∧
      (∀ g ∈ ([(5, "gray", ((10 : ℤ), (10 : ℤ), (10 : ℤ))), (7, "black", (0, 0, 0))] :
        List PalEntry), colorDist (0, 0, 0) f.2.2 ≤ colorDist (0, 0, 0) g.2.2) ∧
      (∀ g ∈ pre, colorDist (0, 0, 0) f.2.2 < colorDist (0, 0, 0) g.2.2) ∧
      (∀ g ∈ ([(5, "gray", ((10 : ℤ), (10 : ℤ), (10 : ℤ))), (7, "black", (0, 0, 0))] :
        List PalEntry), g.2.2 = (0, 0, 0) → colorDist (0, 0, 0) f.2.2 = 0) :=
  matchcolor_nearest (0, 0, 0)
    [(5, "gray", (10, 10, 10)), (7, "black", (0, 0, 0))]
    (by decide) (by decide) (by decide)

/-! ### Claim C7: line tiling endpoint guarantees -/

/-- Claim C7 as amended: a segment shorter than the epsilon threshold
yields exactly one cell, the start point condensed by `int()`
truncation toward zero (the containing cell only when both coordinates
are nonnegative); a segment at or above the threshold always contains
the truncated cells of both exact endpoints, for every step
granularity. -/
theorem gettiles_endpoint_cells (step : ℝ) (p1 p2 : ℝ × ℝ) :
    (segLength p1 p2 < 1 / 100 → gettiles step p1 p2 = {pointCell p1}) ∧
    (1 / 100 ≤ segLength p1 p2 →
      pointCell p1 ∈ gettiles step p1 p2 ∧ pointCell p2 ∈ gettiles step p1 p2) := by
  constructor
  · intro h
    rw [gettiles, if_pos h]
  · intro h
    rw [gettiles, if_neg (not_lt.mpr h)]
    have hdiv1 : (1 : ℝ) ≤
        (if segLength p1 p2 / step < 1 then 1 else segLength p1 p2 / step) := by
      split_ifs with hc
      · exact le_refl 1
      · exact not_lt.mp hc
    have hn : 0 < (pyIntR
        (if segLength p1 p2 / step < 1 then 1 else segLength p1 p2 / step)).toNat := by
      have hpy : pyIntR (if segLength p1 p2 / step < 1 then 1 else segLength p1 p2 / step) =
          ⌊(if segLength p1 p2 / step < 1 then 1 else segLength p1 p2 / step)⌋ := by
        rw [pyIntR, if_pos (le_trans zero_le_one hdiv1)]
      have h1 : (1 : ℤ) ≤
          ⌊(if segLength p1 p2 / step < 1 then 1 else segLength p1 p2 / step)⌋ := by
        rw [Int.le_floor]
        exact_mod_cast hdiv1
      rw [hpy]
      omega
    constructor
    · apply List.mem_toFinset.mpr
      apply List.mem_map.mpr
      refine ⟨p1, ?_, rfl⟩
      apply List.mem_append_left
      apply List.mem_map.mpr
      refine ⟨0, List.mem_range.mpr hn, ?_⟩
      simp
    · apply List.mem_toFinset.mpr
      apply List.mem_map.mpr
      refine ⟨p2, ?_, rfl⟩
      apply List.mem_append_right
      exact List.mem_singleton.mpr rfl

/-- Claim C7 counterexample: the degenerate segment at the point
`(-1/2, -1/2)` returns the single cell `(0, 0)` (truncation toward
zero), but that cell does not contain the start point, which lies in
cell `(-1, -1)`. -/
theorem gettiles_negative_start_cell :
    gettiles TILINGSTEPS (-(1 / 2 : ℝ), -(1 / 2 : ℝ)) (-(1 / 2 : ℝ), -(1 / 2 : ℝ)) =
      {((0 : ℤ), (0 : ℤ))} ∧
    ¬cellContains ((0 : ℤ), (0 : ℤ)) (-(1 / 2 : ℝ), -(1 / 2 : ℝ)) ∧
    cellContains ((-1 : ℤ), (-1 : ℤ)) (-(1 / 2 : ℝ), -(1 / 2 : ℝ)) := by
  refine ⟨?_, ?_, ?_⟩
  · have hlen : segLength (-(1 / 2 : ℝ), -(1 / 2 : ℝ)) (-(1 / 2 : ℝ), -(1 / 2 : ℝ)) = 0 := by
      simp [segLength]
    rw [gettiles, if_pos (by rw [hlen]; norm_num)]
    have hcell : pointCell (-(1 / 2 : ℝ), -(1 / 2 : ℝ)) = ((0 : ℤ), (0 : ℤ)) := by
      have hfl : ⌊(1 / 2 : ℝ)⌋ = 0 := by
        rw [Int.floor_eq_zero_iff]
        constructor <;> norm_num
      simp only [pointCell, pyIntR]
      norm_num [hfl]
    rw [hcell]
  · intro hc
    have := hc.1
    norm_num at this
  · refine ⟨by norm_num, by norm_num, by norm_num, by norm_num⟩

theorem gettiles_endpoint_cells_witness :
    (gettiles TILINGSTEPS ((1 / 2 : ℝ), (1 / 2 : ℝ)) ((1 / 2 : ℝ), (1 / 2 : ℝ)) =
      {pointCell ((1 / 2 : ℝ), (1 / 2 : ℝ))}) ∧
    (pointCell ((0 : ℝ), (0 : ℝ)) ∈ gettiles TILINGSTEPS ((0 : ℝ), (0 : ℝ)) ((0 : ℝ), (3 : ℝ)) ∧
     pointCell ((0 : ℝ), (3 : ℝ)) ∈ gettiles TILINGSTEPS ((0 : ℝ), (0 : ℝ)) ((0 : ℝ), (3 : ℝ))) := by
  constructor
  · apply (gettiles_endpoint_cells TILINGSTEPS _ _).1
    have hlen : segLength ((1 / 2 : ℝ), (1 / 2 : ℝ)) ((1 / 2 : ℝ), (1 / 2 : ℝ)) = 0 := by
      simp [segLength]
    rw [hlen]
    norm_num
  · apply (gettiles_endpoint_cells TILINGSTEPS _ _).2
    have hlen : segLength ((0 : ℝ), (0 : ℝ)) ((0 : ℝ), (3 : ℝ)) = 3 := by
      simp only [segLength]
      rw [show ((0 : ℝ) - 0) ^ 2 + ((3 : ℝ) - 0) ^ 2 = 3 ^ 2 by norm_num]
      exact Real.sqrt_sq (by norm_num)
    rw [hlen]
    norm_num

/-! ### Claim C4: polygon tiling parity -/

theorem intRange_zero (lo hi : ℤ) (h : hi ≤ lo) : intRange lo hi = [] := by
  unfold intRange
  rw [show (hi - lo).toNat = 0 by omega]
  rfl

theorem intRange_cons (lo hi : ℤ) (h : lo < hi) :
    intRange lo hi = lo :: intRange (lo + 1) hi := by
  unfold intRange
  obtain ⟨k, hk⟩ : ∃ k, (hi - lo).toNat = k + 1 := ⟨(hi - lo).toNat - 1, by omega⟩
  rw [hk, show (hi - (lo + 1)).toNat = k by omega, List.range_succ_eq_map]
  simp only [List.map_cons, List.map_map, Nat.cast_zero, add_zero]
  congr 1
  apply List.map_congr_left
  intro i _
  simp only [Function.comp_apply]
  push_cast
  ring

theorem mem_intRange (lo hi z : ℤ) : z ∈ intRange lo hi ↔ lo ≤ z ∧ z < hi := by
  unfold intRange
  constructor
  · intro hz
    obtain ⟨i, hi2, hzi⟩ := List.mem_map.mp hz
    have := List.mem_range.mp hi2
    omega
  · intro hz
    apply List.mem_map.mpr
    exact ⟨(z - lo).toNat, List.mem_range.mpr (by omega), by omega⟩

/-- The total crossing count accumulated by the column scan from the
top of the scanned range `lo` down to and including the probe of cell
`(col, y)`. -/
def cumCross (walls : List Seg) (ox oy : ℚ) (col : ℤ) (lo y : ℤ) : ℕ :=
  ((intRange lo (y + 1)).map
    (fun t => probeCross walls (probeA ox oy col t) (probeB ox oy col t))).sum

theorem cumCross_self (walls : List Seg) (ox oy : ℚ) (col lo : ℤ) :
    cumCross walls ox oy col lo lo =
      probeCross walls (probeA ox oy col lo) (probeB ox oy col lo) := by
  unfold cumCross
  rw [intRange_cons lo (lo + 1) (by omega), intRange_zero (lo + 1) (lo + 1) le_rfl]
  simp

theorem cumCross_step (walls : List Seg) (ox oy : ℚ) (col lo y : ℤ) (h : lo ≤ y) :
    cumCross walls ox oy col lo y =
      probeCross walls (probeA ox oy col lo) (probeB ox oy col lo) +
        cumCross walls ox oy col (lo + 1) y := by
  unfold cumCross
  rw [intRange_cons lo (y + 1) (by omega)]
  simp

theorem columnScan_mem (walls : List Seg) (ox oy : ℚ) (col : ℤ) :
    ∀ (n : ℕ) (lo : ℤ) (cnt : ℕ) (c y : ℤ),
      ((c, y) ∈ columnScan walls ox oy col (intRange lo (lo + n)) cnt ↔
        (c = col ∧ lo ≤ y ∧ y < lo + n ∧
          (cnt + cumCross walls ox oy col lo y) % 2 = 1)) := by
  intro n
  induction n with
  | zero =>
    intro lo cnt c y
    rw [show lo + (0 : ℕ) = lo by omega, intRange_zero lo lo le_rfl]
    simp only [columnScan, List.not_mem_nil, false_iff]
    intro hcon
    omega
  | succ k ih =>
    intro lo cnt c y
    rw [show lo + ((k : ℕ) + 1 : ℕ) = lo + (((k + 1) : ℕ) : ℤ) by push_cast; ring]
    rw [intRange_cons lo (lo + ((k + 1 : ℕ) : ℤ)) (by push_cast; omega)]
    rw [columnScan]
    by_cases hy : y = lo
    · subst hy
      simp only [List.mem_append]
      have hrec : ¬((c, y) ∈ columnScan walls ox oy col
          (intRange (y + 1) (y + ((k + 1 : ℕ) : ℤ))) (cnt +
            probeCross walls (probeA ox oy col y) (probeB ox oy col y))) := by
        rw [show y + ((k + 1 : ℕ) : ℤ) = (y + 1) + ((k : ℕ) : ℤ) by push_cast; ring]
        rw [ih]
        intro hcon
        omega
      constructor
      · intro hmem
        rcases hmem with h1 | h2
        · split_ifs at h1 with hpar
          · simp only [List.mem_singleton, Prod.mk.injEq] at h1
            refine ⟨h1.1, le_refl y, by push_cast; omega, ?_⟩
            rw [cumCross_self]
            omega
          · cases h1
        · exact absurd h2 hrec
      · rintro ⟨hc, _, _, hpar⟩
        left
        rw [cumCross_self] at hpar
        rw [if_pos (by omega)]
        simp [hc]
    · simp only [List.mem_append]
      have hfirst : ¬((c, y) ∈ (if (cnt +
          probeCross walls (probeA ox oy col lo) (probeB ox oy col lo)) % 2 = 1 then
            [(col, lo)] else [])) := by
        split_ifs
        · simp only [List.mem_singleton, Prod.mk.injEq]
          intro hcon
          exact hy hcon.2
        · simp
      rw [show lo + ((k + 1 : ℕ) : ℤ) = (lo + 1) + ((k : ℕ) : ℤ) by push_cast; ring]
      rw [ih]
      constructor
      · rintro (h1 | h2)
        · exact absurd h1 hfirst
        · obtain ⟨hc, hy1, hy2, hpar⟩ := h2
          refine ⟨hc, by omega, by omega, ?_⟩
          rw [cumCross_step walls ox oy col lo y (by omega)]
          omega
      · rintro ⟨hc, hy1, hy2, hpar⟩
        right
        refine ⟨hc, by omega, by omega, ?_⟩
        rw [cumCross_step walls ox oy col lo y (by omega)] at hpar
        omega

theorem intRange_as_add (lo hi : ℤ) :
    intRange lo hi = intRange lo (lo + ((hi - lo).toNat : ℤ)) := by
  unfold intRange
  congr 2
  omega

theorem tilepolygon_eq (walls : List Seg) (ox oy : ℚ) (hw : walls ≠ []) :
    tilepolygon walls ox oy =
      some ((intRange (scanMinX walls) (scanMaxX walls)).flatMap
        (fun col => columnScan walls ox oy col
          (intRange (scanMinY walls) (scanMaxY walls)) 0)) := by
  cases walls with
  | nil => exact absurd rfl hw
  | cons a t => rfl

/-- The axis-aligned 4 by 4 demo square polygon. -/
def demoSquare : List Seg :=
  [((0, 0), (4, 0)), ((4, 0), (4, 4)), ((4, 4), (0, 4)), ((0, 4), (0, 0))]

/-- The tile set `_tilepolygon` returns for `demoSquare` with the
default half-cell probe offsets: the sixteen interior cells. -/
def demoSquareTiles : List (ℤ × ℤ) :=
  [(0, 0), (0, 1), (0, 2), (0, 3), (1, 0), (1, 1), (1, 2), (1, 3),
   (2, 0), (2, 1), (2, 2), (2, 3), (3, 0), (3, 1), (3, 2), (3, 3)]

/-- Claim C4 counterexample: cell `(1, 1)` is in the tile set of the
demo square, but its own short probe segment crosses zero boundary
segments (an even count), so membership is not decided by the parity of
the crossings of the cell probe itself. -/
theorem tilepolygon_own_probe_parity_fails :
    (1, 1) ∈ (tilepolygon demoSquare (1 / 2 : ℚ) (-(1 / 2) : ℚ)).getD [] ∧
    probeCross demoSquare (probeA (1 / 2) (-(1 / 2)) 1 1) (probeB (1 / 2) (-(1 / 2)) 1 1)
      = 0 := by
  constructor
  · with_unfolding_all decide
  · with_unfolding_all decide

/-- Claim C4 as amended: a cell is in the tile set returned by
`_tilepolygon` exactly when it lies in the scanned extents and the
crossing counter accumulated over all probe segments of its column,
from the top of the scanned range down to and including the probe of
the cell itself, is odd (the counter is not reset between cells of one
column); and on the concrete convex demo square the returned cells are
exactly those of the scanned extents whose interior probe point passes
the reference even-odd point-in-polygon test. -/
theorem tilepolygon_cumulative_parity :
    (∀ (walls : List Seg) (ox oy : ℚ) (ts : List (ℤ × ℤ)),
      tilepolygon walls ox oy = some ts → ∀ col y : ℤ,
        ((col, y) ∈ ts ↔
          (scanMinX walls ≤ col ∧ col < scanMaxX walls ∧
           scanMinY walls ≤ y ∧ y < scanMaxY walls ∧
           cumCross walls ox oy col (scanMinY walls) y % 2 = 1))) ∧
    (tilepolygon demoSquare (1 / 2 : ℚ) (-(1 / 2) : ℚ) = some demoSquareTiles ∧
     demoSquareTiles =
       (((intRange (scanMinX demoSquare) (scanMaxX demoSquare)).flatMap
         (fun c => (intRange (scanMinY demoSquare) (scanMaxY demoSquare)).map
           (fun y => (c, y)))).filter
         (fun cy => refEvenOdd demoSquare ((cy.1 : ℚ) + 1 / 2, (cy.2 : ℚ) + 1 / 2)))) := by
  constructor
  · intro walls ox oy ts h col y
    have hw : walls ≠ [] := by
      intro hcon
      rw [hcon] at h
      cases h
    rw [tilepolygon_eq walls ox oy hw, Option.some_inj] at h
    subst h
    rw [List.mem_flatMap]
    constructor
    · rintro ⟨c, hc, hmem⟩
      rw [intRange_as_add (scanMinY walls) (scanMaxY walls)] at hmem
      obtain ⟨hceq, hy1, hy2, hpar⟩ := (columnScan_mem walls ox oy c _ _ _ _ _).mp hmem
      obtain ⟨hc1, hc2⟩ := (mem_intRange _ _ _).mp hc
      subst hceq
      refine ⟨hc1, hc2, hy1, by omega, by simpa using hpar⟩
    · rintro ⟨hx1, hx2, hy1, hy2, hpar⟩
      refine ⟨col, (mem_intRange _ _ _).mpr ⟨hx1, hx2⟩, ?_⟩
      rw [intRange_as_add (scanMinY walls) (scanMaxY walls)]
      exact (columnScan_mem walls ox oy col _ _ _ _ _).mpr
        ⟨rfl, hy1, by omega, by simpa using hpar⟩
  · constructor
    · with_unfolding_all decide
    · with_unfolding_all decide

theorem tilepolygon_cumulative_parity_witness :
    ((1, 1) ∈ demoSquareTiles ↔
      (scanMinX demoSquare ≤ 1 ∧ (1 : ℤ) < scanMaxX demoSquare ∧
       scanMinY demoSquare ≤ 1 ∧ (1 : ℤ) < scanMaxY demoSquare ∧
       cumCross demoSquare (1 / 2) (-(1 / 2)) 1 (scanMinY demoSquare) 1 % 2 = 1)) :=
  tilepolygon_cumulative_parity.1 demoSquare (1 / 2) (-(1 / 2)) demoSquareTiles
    tilepolygon_cumulative_parity.2.1 1 1

/-! ### Claim C1: brick packer exact cover -/

/-- Two placed parts occupy no common cell. -/
def cellsDisjoint (a b : Placed) : Prop := ∀ c, c ∈ a.cells → c ∉ b.cells

/-- The effect of one stage of the packer on the cell map `m`: the
result map is a submap of `m`, the placements of the stage partition
exactly the cells removed from `m`, their footprints are pairwise
disjoint and disjoint from the remaining map, and each placement is
monochromatic in `m` with its recorded color. -/
def PackStep (m : CMap) (r : CMap × List Placed) : Prop :=
  (∀ c v, r.1.lookup c = some v → m.lookup c = some v) ∧
  (∀ c : Cell, c ∈ m ↔ (c ∈ r.1 ∨ ∃ pp ∈ r.2, c ∈ pp.cells)) ∧
  (∀ c : Cell, c ∈ r.1 → ∀ pp ∈ r.2, c ∉ pp.cells) ∧
  r.2.Pairwise cellsDisjoint ∧
  (∀ pp ∈ r.2, ∀ c ∈ pp.cells, m.lookup c = some pp.color)

theorem lookup_none_of_submap {m m2 : CMap}
    (hsub : ∀ c v, m2.lookup c = some v → m.lookup c = some v) {c : Cell}
    (hm : m.lookup c = none) : m2.lookup c = none := by
  cases h2 : m2.lookup c with
  | none => rfl
  | some v => rw [hsub c v h2] at hm; cases hm

theorem mem_of_mem_of_submap {m m2 : CMap}
    (hsub : ∀ c v, m2.lookup c = some v → m.lookup c = some v) {c : Cell}
    (hc : c ∈ m2) : c ∈ m := by
  obtain ⟨v, hv⟩ := Option.isSome_iff_exists.mp (AList.lookup_isSome.mpr hc)
  exact AList.lookup_isSome.mp (by rw [hsub c v hv]; rfl)

theorem packStep_refl (m : CMap) : PackStep m (m, []) := by
  refine ⟨fun c v h => h, fun c => ?_, fun c _ pp hpp => absurd hpp (List.not_mem_nil pp),
    List.Pairwise.nil, fun pp hpp => absurd hpp (List.not_mem_nil pp)⟩
  simp

theorem packStep_comp {m m1 m2 : CMap} {ps1 ps2 : List Placed}
    (h1 : PackStep m (m1, ps1)) (h2 : PackStep m1 (m2, ps2)) :
    PackStep m (m2, ps1 ++ ps2) := by
  obtain ⟨sub1, iff1, dis1, pw1, col1⟩ := h1
  obtain ⟨sub2, iff2, dis2, pw2, col2⟩ := h2
  refine ⟨fun c v h => sub1 c v (sub2 c v h), ?_, ?_, ?_, ?_⟩
  · intro c
    rw [iff1 c, iff2 c]
    constructor
    · rintro ((hm2 | hps2) | hps1)
      · exact Or.inl hm2
      · right
        obtain ⟨pp, hpp, hc⟩ := hps2
        exact ⟨pp, List.mem_append_right ps1 hpp, hc⟩
      · right
        obtain ⟨pp, hpp, hc⟩ := hps1
        exact ⟨pp, List.mem_append_left ps2 hpp, hc⟩
    · rintro (hm2 | hps)
      · exact Or.inl (Or.inl hm2)
      · obtain ⟨pp, hpp, hc⟩ := hps
        rcases List.mem_append.mp hpp with hp1 | hp2
        · exact Or.inr ⟨pp, hp1, hc⟩
        · exact Or.inl (Or.inr ⟨pp, hp2, hc⟩)
  · intro c hc pp hpp
    rcases List.mem_append.mp hpp with hp1 | hp2
    · exact dis1 c (mem_of_mem_of_submap sub2 hc) pp hp1
    · exact dis2 c hc pp hp2
  · rw [List.pairwise_append]
    refine ⟨pw1, pw2, ?_⟩
    intro a ha b hb c hca hcb
    have hcm1 : c ∈ m1 := (iff2 c).mpr (Or.inr ⟨b, hb, hcb⟩)
    exact dis1 c hcm1 a ha hca
  · intro pp hpp c hc
    rcases List.mem_append.mp hpp with hp1 | hp2
    · exact col1 pp hp1 c hc
    · exact sub1 c pp.color (col2 pp hp2 c hc)

theorem eraseAll_lookup (fp : List Cell) :
    ∀ (m : CMap) (c : Cell),
      (eraseAll fp m).lookup c = if c ∈ fp then none else m.lookup c := by
  induction fp with
  | nil =>
    intro m c
    rw [if_neg (List.not_mem_nil c)]
    rfl
  | cons f t ih =>
    intro m c
    have hstep : eraseAll (f :: t) m = eraseAll t (m.erase f) := rfl
    rw [hstep, ih (m.erase f) c]
    by_cases hct : c ∈ t
    · rw [if_pos hct, if_pos (List.mem_cons_of_mem f hct)]
    · rw [if_neg hct]
      by_cases hcf : c = f
      · subst hcf
        rw [if_pos (List.mem_cons_self c t)]
        exact AList.lookup_erase c m
      · rw [if_neg (by simp [hcf, hct])]
        exact AList.lookup_erase_ne hcf

theorem eraseAll_mem (fp : List Cell) (m : CMap) (c : Cell) :
    c ∈ eraseAll fp m ↔ (c ∈ m ∧ c ∉ fp) := by
  constructor
  · intro hc
    obtain ⟨v, hv⟩ := Option.isSome_iff_exists.mp (AList.lookup_isSome.mpr hc)
    rw [eraseAll_lookup fp m c] at hv
    by_cases hcf : c ∈ fp
    · rw [if_pos hcf] at hv; cases hv
    · rw [if_neg hcf] at hv
      exact ⟨AList.lookup_isSome.mp (by rw [hv]; rfl), hcf⟩
  · rintro ⟨hcm, hcf⟩
    obtain ⟨v, hv⟩ := Option.isSome_iff_exists.mp (AList.lookup_isSome.mpr hcm)
    apply AList.lookup_isSome.mp
    rw [eraseAll_lookup fp m c, if_neg hcf, hv]
    rfl

theorem packStep_one_place (m : CMap) (k : Cell) (p : BPart) (ccolor : ℕ)
    (hfp : ∀ c ∈ partCells k.1 k.2.1 k.2.2 p, m.lookup c = some ccolor) :
    PackStep m (eraseAll (partCells k.1 k.2.1 k.2.2 p) m,
      [⟨k.1, k.2.1, k.2.2, p, ccolor⟩]) := by
  have hcells : (⟨k.1, k.2.1, k.2.2, p, ccolor⟩ : Placed).cells =
      partCells k.1 k.2.1 k.2.2 p := rfl
  refine ⟨?_, ?_, ?_, List.pairwise_singleton _ _, ?_⟩
  · intro c v h
    rw [eraseAll_lookup] at h
    by_cases hcf : c ∈ partCells k.1 k.2.1 k.2.2 p
    · rw [if_pos hcf] at h
      exact Option.noConfusion h
    · rw [if_neg hcf] at h
      exact h
  · intro c
    constructor
    · intro hc
      by_cases hcf : c ∈ partCells k.1 k.2.1 k.2.2 p
      · exact Or.inr ⟨⟨k.1, k.2.1, k.2.2, p, ccolor⟩, List.mem_singleton.mpr rfl,
          by rw [hcells]; exact hcf⟩
      · exact Or.inl ((eraseAll_mem _ _ _).mpr ⟨hc, hcf⟩)
    · rintro (h1 | ⟨pp, hpp, hc⟩)
      · exact ((eraseAll_mem _ _ _).mp h1).1
      · rw [List.mem_singleton.mp hpp, hcells] at hc
        exact AList.lookup_isSome.mp (by rw [hfp c hc]; rfl)
  · intro c hc pp hpp
    rw [List.mem_singleton.mp hpp, hcells]
    exact ((eraseAll_mem _ _ _).mp hc).2
  · intro pp hpp c hc
    rw [List.mem_singleton.mp hpp] at hc ⊢
    rw [hcells] at hc
    exact hfp c hc

theorem placePass_spec (p : BPart) :
    ∀ (ks : List Cell) (m : CMap), PackStep m (placePass p ks m) := by
  intro ks
  induction ks with
  | nil => intro m; exact packStep_refl m
  | cons k ks ih =>
    intro m
    cases hk : m.lookup k with
    | none =>
      have hred : placePass p (k :: ks) m = placePass p ks m := by
        simp only [placePass, hk]
      rw [hred]
      exact ih m
    | some ccolor =>
      by_cases hfp : ∀ c ∈ partCells k.1 k.2.1 k.2.2 p, m.lookup c = some ccolor
      · have hred : placePass p (k :: ks) m =
            ((placePass p ks (eraseAll (partCells k.1 k.2.1 k.2.2 p) m)).1,
             ⟨k.1, k.2.1, k.2.2, p, ccolor⟩ ::
               (placePass p ks (eraseAll (partCells k.1 k.2.1 k.2.2 p) m)).2) := by
          simp only [placePass, hk, if_pos hfp]
        rw [hred]
        have hcomp := packStep_comp (packStep_one_place m k p ccolor hfp)
          (ih (eraseAll (partCells k.1 k.2.1 k.2.2 p) m))
        simpa using hcomp
      · have hred : placePass p (k :: ks) m = placePass p ks m := by
          simp only [placePass, hk, if_neg hfp]
        rw [hred]
        exact ih m

theorem packLoop_spec (parts : List BPart) :
    ∀ m : CMap, PackStep m (packLoop parts m) := by
  induction parts with
  | nil => intro m; exact packStep_refl m
  | cons p ps ih =>
    intro m
    have hred : packLoop (p :: ps) m =
        ((packLoop ps (placePass p m.keys m).1).1,
         (placePass p m.keys m).2 ++ (packLoop ps (placePass p m.keys m).1).2) := rfl
    rw [hred]
    exact packStep_comp (placePass_spec p m.keys m) (ih (placePass p m.keys m).1)

theorem partCells_unit (x y h : ℤ) (d : String) :
    partCells x y h ⟨1, 1, 1, d⟩ = [(x, y, h)] := by
  simp [partCells, List.range_succ]

theorem placePass_unit_erases (d : String) :
    ∀ (ks : List Cell) (m : CMap) (c : Cell), c ∈ ks →
      ((placePass ⟨1, 1, 1, d⟩ ks m).1).lookup c = none := by
  intro ks
  induction ks with
  | nil =>
    intro m c hc
    exact absurd hc (List.not_mem_nil c)
  | cons k ks ih =>
    intro m c hc
    cases hk : m.lookup k with
    | none =>
      have hred : placePass ⟨1, 1, 1, d⟩ (k :: ks) m = placePass ⟨1, 1, 1, d⟩ ks m := by
        simp only [placePass, hk]
      rw [hred]
      rcases List.mem_cons.mp hc with hck | hcks
      · subst hck
        exact lookup_none_of_submap
          (fun c2 v hv => (placePass_spec ⟨1, 1, 1, d⟩ ks m).1 c2 v hv) hk
      · exact ih m c hcks
    | some ccolor =>
      have hfp : ∀ c2 ∈ partCells k.1 k.2.1 k.2.2 (⟨1, 1, 1, d⟩ : BPart),
          m.lookup c2 = some ccolor := by
        intro c2 hc2
        rw [partCells_unit] at hc2
        rw [List.mem_singleton.mp hc2]
        exact hk
      have hred : placePass ⟨1, 1, 1, d⟩ (k :: ks) m =
          ((placePass ⟨1, 1, 1, d⟩ ks
             (eraseAll (partCells k.1 k.2.1 k.2.2 ⟨1, 1, 1, d⟩) m)).1,
           ⟨k.1, k.2.1, k.2.2, ⟨1, 1, 1, d⟩, ccolor⟩ ::
             (placePass ⟨1, 1, 1, d⟩ ks
               (eraseAll (partCells k.1 k.2.1 k.2.2 ⟨1, 1, 1, d⟩) m)).2) := by
        simp only [placePass, hk, if_pos hfp]
      rw [hred]
      rcases List.mem_cons.mp hc with hck | hcks
      · subst hck
        have herased : (eraseAll (partCells c.1 c.2.1 c.2.2 (⟨1, 1, 1, d⟩ : BPart))
            m).lookup c = none := by
          rw [eraseAll_lookup, if_pos (by rw [partCells_unit]; simp)]
        exact lookup_none_of_submap
          (fun c2 v hv => (placePass_spec ⟨1, 1, 1, d⟩ ks _).1 c2 v hv) herased
      · exact ih _ c hcks

theorem packLoop_unit_empty (d : String) :
    ∀ (parts : List BPart) (m : CMap), (⟨1, 1, 1, d⟩ : BPart) ∈ parts →
      ∀ c : Cell, ((packLoop parts m).1).lookup c = none := by
  intro parts
  induction parts with
  | nil =>
    intro m hmem
    exact absurd hmem (List.not_mem_nil _)
  | cons p ps ih =>
    intro m hmem c
    have hred : (packLoop (p :: ps) m).1 = (packLoop ps (placePass p m.keys m).1).1 := rfl
    rw [hred]
    rcases List.mem_cons.mp hmem with hp | hps
    · subst hp
      have hr1 : ((placePass ⟨1, 1, 1, d⟩ m.keys m).1).lookup c = none := by
        by_cases hck : c ∈ m.keys
        · exact placePass_unit_erases d m.keys m c hck
        · have hcm : m.lookup c = none := by
            rw [AList.lookup_eq_none]
            intro hc
            exact hck (AList.mem_keys.mp hc)
          exact lookup_none_of_submap
            (fun c2 v hv => (placePass_spec ⟨1, 1, 1, d⟩ m.keys m).1 c2 v hv) hcm
      exact lookup_none_of_submap
        (fun c2 v hv => (packLoop_spec ps _).1 c2 v hv) hr1
    · exact ih _ hps c

theorem mem_buildMap_aux :
    ∀ (g : List (Cell × ℕ)) (m : CMap) (c : Cell),
      c ∈ g.foldl (fun m2 e => m2.insert e.1 e.2) m ↔ (c ∈ m ∨ c ∈ g.map Prod.fst) := by
  intro g
  induction g with
  | nil =>
    intro m c
    simp
  | cons a t ih =>
    intro m c
    rw [List.foldl_cons, ih (m.insert a.1 a.2) c]
    rw [AList.mem_insert]
    simp only [List.map_cons, List.mem_cons]
    tauto

theorem mem_buildMap (g : List (Cell × ℕ)) (c : Cell) :
    c ∈ buildMap g ↔ c ∈ g.map Prod.fst := by
  unfold buildMap
  rw [mem_buildMap_aux g ∅ c]
  simp [AList.not_mem_empty]

/-- Claim C1: for a non-empty plate list, the configured nonzero plate
height and a part catalog containing a 1x1x1-equivalent entry,
`brickify` returns placed parts whose occupied cells, taken together,
are exactly the `(x, y, rounded-height)` cells of the input grid, with
pairwise disjoint footprints (each cell consumed exactly once), and
every placed part footprint is monochromatic in the built cell map with
the color the part records. -/
theorem brickify_exact_cover (grid : List (ℤ × ℤ × ℚ × ℕ)) (parts : List BPart)
    (plt : ℚ) (hne : grid ≠ []) (hplt : plt ≠ 0)
    (hunit : ∃ d, (⟨1, 1, 1, d⟩ : BPart) ∈ parts) :
    ∃ asm, brickify grid parts plt = some asm ∧
      (∀ c : Cell, (∃ pp ∈ asm, c ∈ pp.cells) ↔ c ∈ (convertGrid grid plt).map Prod.fst) ∧
      asm.Pairwise cellsDisjoint ∧
      (∀ pp ∈ asm, ∀ c ∈ pp.cells,
        (buildMap (convertGrid grid plt)).lookup c = some pp.color) := by
  obtain ⟨d, hd⟩ := hunit
  refine ⟨brickifyCore (convertGrid grid plt) parts, ?_, ?_, ?_, ?_⟩
  · cases grid with
    | nil => exact absurd rfl hne
    | cons a t =>
      show (if plt = 0 then none else some _) = some _
      rw [if_neg hplt]
  · intro c
    obtain ⟨sub0, iff0, dis0, pw0, col0⟩ := packLoop_spec parts (buildMap (convertGrid grid plt))
    have hempty : c ∉ (packLoop parts (buildMap (convertGrid grid plt))).1 := by
      intro hc
      have := AList.lookup_isSome.mpr hc
      rw [packLoop_unit_empty d parts (buildMap (convertGrid grid plt)) hd c] at this
      cases this
    constructor
    · intro hex
      rw [← mem_buildMap]
      exact (iff0 c).mpr (Or.inr hex)
    · intro hc
      rcases (iff0 c).mp ((mem_buildMap _ c).mpr hc) with h1 | h2
      · exact absurd h1 hempty
      · exact h2
  · exact (packLoop_spec parts (buildMap (convertGrid grid plt))).2.2.2.1
  · exact (packLoop_spec parts (buildMap (convertGrid grid plt))).2.2.2.2

theorem brickify_exact_cover_witness :
    ∃ asm, brickify [((0 : ℤ), (0 : ℤ), (0 : ℚ), 5)] [⟨1, 1, 1, "3024.dat"⟩] 1 = some asm ∧
      (∀ c : Cell, (∃ pp ∈ asm, c ∈ pp.cells) ↔
        c ∈ (convertGrid [((0 : ℤ), (0 : ℤ), (0 : ℚ), 5)] 1).map Prod.fst) ∧
      asm.Pairwise cellsDisjoint ∧
      (∀ pp ∈ asm, ∀ c ∈ pp.cells,
        (buildMap (convertGrid [((0 : ℤ), (0 : ℤ), (0 : ℚ), 5)] 1)).lookup c =
          some pp.color) :=
  brickify_exact_cover [((0 : ℤ), (0 : ℤ), (0 : ℚ), 5)] [⟨1, 1, 1, "3024.dat"⟩] 1
    (by simp) (by norm_num) ⟨"3024.dat", by simp⟩
